/-
Verification development for the UnoLeaderboard multi-model rating engine.

The definitions below are shallow embeddings of the TypeScript sources:
  - src/lib/elo.ts          (K factor, expected score, pairwise Elo changes)
  - src/lib/multiplayer.ts  (Codeforces-style expected-rank changes)
  - src/ALGORITHM.md        (the normalizeRankings implementation, section 6.2)
  - src/unnamed/part_004    (Whole-History Rating engine, computeWHR)

JS numbers are modelled as real numbers (exact arithmetic); elimination
indices and normalized positions in the normalizer are modelled as rationals
so that the normalizer stays executable.  JS Math.round x is floor (x + 1/2).
-/
import Mathlib

noncomputable section

open Real Filter

/-- Floor K factor for veterans, src/lib/elo.ts line 12. -/
def K_MIN : ℝ := 16

/-- Starting K factor for brand-new players, src/lib/elo.ts line 13. -/
def K_MAX : ℝ := 32

/-- Decay rate of the K factor, src/lib/elo.ts line 14. -/
def K_DECAY_RATE : ℝ := 20

/-- Embeds getKFactor, src/lib/elo.ts lines 16-18:
K(n) = K_MIN + (K_MAX - K_MIN) * exp (-n / K_DECAY_RATE).
The TS parameter gamesPlayed has type number, modelled as a real. -/
def getKFactor (gamesPlayed : ℝ) : ℝ :=
  K_MIN + (K_MAX - K_MIN) * Real.exp (-gamesPlayed / K_DECAY_RATE)

/-- Embeds getExpectedScore, src/lib/elo.ts lines 20-22:
1 / (1 + 10 ^ ((opponentElo - playerElo) / 400)). -/
def getExpectedScore (playerElo opponentElo : ℝ) : ℝ :=
  1 / (1 + (10 : ℝ) ^ ((opponentElo - playerElo) / 400))

/-- Participant record consumed by calculateEloChanges, src/lib/elo.ts line 29. -/
structure Player where
  id : String
  elo : ℝ
  gamesPlayed : ℝ
  position : ℝ

/-- JS Math.round, used at src/lib/elo.ts line 78 and src/lib/multiplayer.ts
line 76: rounds to the nearest integer with halves rounded up,
which is floor (x + 1/2). -/
def jsRound (x : ℝ) : ℤ := ⌊x + 1/2⌋

/-- Actual score of p against q in one virtual pairwise match,
src/lib/elo.ts lines 44-54: 1 if p finished strictly better (smaller
position), 0 if strictly worse, 1/2 on an exact tie. -/
def pairScore (p q : Player) : ℝ :=
  if p.position < q.position then 1
  else if q.position < p.position then 0
  else 1/2

/-- Unrounded change credited to p from the virtual match against q,
src/lib/elo.ts lines 56-72: k_p * (s_p - e_p).  In the source the double
loop over pairs i < j adds exactly this quantity to the record entry of
each of the two players, with the roles of p and q swapped for the second. -/
def pairDelta (p q : Player) : ℝ :=
  getKFactor p.gamesPlayed * (pairScore p q - getExpectedScore p.elo q.elo)

/-- Unrounded accumulated change of the participant at index i after the
double loop of calculateEloChanges, src/lib/elo.ts lines 37-74 (before the
rounding pass at lines 77-79).  For a list with pairwise distinct ids the
record entry of player i receives pairDelta once for every other index j:
as change1 when i < j and as change2 when j < i, both equal to
pairDelta (ps.get i) (ps.get j). -/
def unroundedDelta (ps : List Player) (i : Fin ps.length) : ℝ :=
  ∑ j in Finset.univ.erase i, pairDelta (ps.get i) (ps.get j)

/-- Sum over all participants of the unrounded pairwise deltas of
calculateEloChanges, src/lib/elo.ts lines 28-82. -/
def totalUnroundedDelta (ps : List Player) : ℝ :=
  ∑ i, unroundedDelta ps i

/-- Embeds calculateEloChanges, src/lib/elo.ts lines 28-82, for inputs with
pairwise distinct ids: the returned record maps the id of each participant
to the integer rounding (Math.round) of the accumulated pairwise change. -/
def calculateEloChanges (ps : List Player) : List (String × ℤ) :=
  (List.finRange ps.length).map (fun i => ((ps.get i).id, jsRound (unroundedDelta ps i)))

/-- The two expected scores of a pair always add to 1. -/
lemma getExpectedScore_add (a b : ℝ) :
    getExpectedScore a b + getExpectedScore b a = 1 := by
  unfold getExpectedScore
  have hb : (a - b) / 400 = -((b - a) / 400) := by ring
  have ht : (0 : ℝ) < (10 : ℝ) ^ ((b - a) / 400) :=
    Real.rpow_pos_of_pos (by norm_num) _
  rw [hb, Real.rpow_neg (by norm_num : (0:ℝ) ≤ 10)]
  field_simp
  ring

/-- The two actual scores of a pair always add to 1. -/
lemma pairScore_add (p q : Player) : pairScore p q + pairScore q p = 1 := by
  unfold pairScore
  rcases lt_trichotomy p.position q.position with h | h | h
  · rw [if_pos h, if_neg (asymm h), if_pos h]; norm_num
  · rw [h]; simp; norm_num
  · rw [if_neg (asymm h), if_pos h, if_pos h]; norm_num

/-- A player paired against themselves contributes nothing. -/
lemma pairDelta_self (p : Player) : pairDelta p p = 0 := by
  unfold pairDelta pairScore getExpectedScore
  rw [if_neg (lt_irrefl _), if_neg (lt_irrefl _)]
  rw [sub_self, zero_div, Real.rpow_zero]
  norm_num

/-- With equal K factors the two unrounded changes of one pair cancel. -/
lemma pairDelta_add_of_K_eq (p q : Player)
    (h : getKFactor p.gamesPlayed = getKFactor q.gamesPlayed) :
    pairDelta p q + pairDelta q p = 0 := by
  unfold pairDelta
  rw [h]
  have hsum : (pairScore p q - getExpectedScore p.elo q.elo) +
      (pairScore q p - getExpectedScore q.elo p.elo) = 0 := by
    have hs := pairScore_add p q
    have he := getExpectedScore_add p.elo q.elo
    linarith
  linear_combination getKFactor q.gamesPlayed * hsum

/-- C9: the K factor satisfies K 0 = 32, K 20 is approximately 22 (within
1/2), is strictly decreasing, stays strictly above 16 everywhere, is
continuous (not a step function), and tends to 16 at infinity. -/
theorem C9_k_factor_curve :
    getKFactor 0 = 32 ∧ |getKFactor 20 - 22| < 1/2 ∧ StrictAnti getKFactor ∧
    (∀ n : ℝ, 16 < getKFactor n) ∧ Continuous getKFactor ∧
    Tendsto getKFactor atTop (nhds 16) := by
  have hform : getKFactor = fun n : ℝ => 16 + 16 * Real.exp (-n / 20) := by
    funext n
    simp [getKFactor, K_MIN, K_MAX, K_DECAY_RATE]
    norm_num
  refine ⟨?_, ?_, ?_, ?_, ?_, ?_⟩
  · rw [hform]; simp
    norm_num
  · rw [hform]
    have h1 := Real.exp_one_gt_d9
    have h2 := Real.exp_one_lt_d9
    have hpos := Real.exp_pos 1
    have hipos : (0:ℝ) < (Real.exp 1)⁻¹ := inv_pos.mpr hpos
    have ha : (Real.exp 1)⁻¹ * Real.exp 1 = 1 := inv_mul_cancel₀ (ne_of_gt hpos)
    have hneg : Real.exp ((-20:ℝ) / 20) = (Real.exp 1)⁻¹ := by
      rw [show ((-20:ℝ) / 20) = -1 by norm_num]
      exact Real.exp_neg 1
    simp only [hneg]
    rw [abs_lt]
    constructor
    · nlinarith
    · nlinarith
  · rw [hform]
    intro a b hab
    have : Real.exp (-b / 20) < Real.exp (-a / 20) :=
      Real.exp_lt_exp.mpr (by linarith)
    simpa using this
  · intro n
    rw [hform]
    simp only
    nlinarith [Real.exp_pos (-n / 20)]
  · rw [hform]
    exact continuous_const.add
      (continuous_const.mul (Real.continuous_exp.comp (continuous_id.neg.div_const 20)))
  · have hbot : Tendsto (fun n : ℝ => -n / 20) atTop atBot := by
      rw [tendsto_atBot]
      intro b
      filter_upwards [Filter.eventually_ge_atTop (-20 * b)] with x hx
      linarith
    have h2 : Tendsto (fun n : ℝ => Real.exp (-n / 20)) atTop (nhds 0) :=
      Real.tendsto_exp_atBot.comp hbot
    have h3 : Tendsto (fun n : ℝ => 16 + 16 * Real.exp (-n / 20)) atTop
        (nhds (16 + 16 * 0)) := (h2.const_mul 16).const_add 16
    rw [hform]
    simpa using h3

/-- C9 witness: strict decrease applied at 0 < 1. -/
theorem C9_k_factor_curve_witness : getKFactor 1 < getKFactor 0 :=
  C9_k_factor_curve.2.2.1 (by norm_num : (0:ℝ) < 1)

/-- Helper: the total unrounded delta of a two-player game is the sum of the
two pair contributions. -/
lemma totalUnroundedDelta_pair (p q : Player) :
    totalUnroundedDelta [p, q] = pairDelta p q + pairDelta q p := by
  have h : totalUnroundedDelta [p, q]
      = ∑ i : Fin 2, ∑ j in Finset.univ.erase i,
          pairDelta ([p, q].get i) ([p, q].get j) := rfl
  rw [h, Fin.sum_univ_two]
  have h0 : (Finset.univ.erase (0 : Fin 2)) = {1} := by decide
  have h1 : (Finset.univ.erase (1 : Fin 2)) = {0} := by decide
  rw [h0, h1, Finset.sum_singleton, Finset.sum_singleton]
  rfl

/-- C1 counterexample: a two-player game between equally rated players with
different games-played counts (hence different K factors).  The winner, a
newcomer with K = 32, gains 16; the loser, a veteran with K = 16 + 16/e,
loses 8 + 8/e; the unrounded deltas sum to 8 - 8/e, which is not 0. -/
theorem C1_counterexample :
    totalUnroundedDelta [⟨"a", 1000, 0, 1⟩, ⟨"b", 1000, 20, 2⟩] ≠ 0 := by
  rw [totalUnroundedDelta_pair]
  have hE : getExpectedScore 1000 1000 = 1/2 := by
    unfold getExpectedScore
    rw [show ((1000:ℝ) - 1000)/400 = 0 by norm_num, Real.rpow_zero]
    norm_num
  have hs1 : pairScore ⟨"a", 1000, 0, 1⟩ ⟨"b", 1000, 20, 2⟩ = 1 := by
    unfold pairScore
    norm_num
  have hs2 : pairScore ⟨"b", 1000, 20, 2⟩ ⟨"a", 1000, 0, 1⟩ = 0 := by
    unfold pairScore
    norm_num
  have hk1 : getKFactor 0 = 32 := by
    unfold getKFactor K_MIN K_MAX K_DECAY_RATE
    norm_num
  have hk2 : getKFactor 20 = 16 + 16 * Real.exp (-1) := by
    unfold getKFactor K_MIN K_MAX K_DECAY_RATE
    norm_num
  have hd1 : pairDelta ⟨"a", 1000, 0, 1⟩ ⟨"b", 1000, 20, 2⟩ = 32 * (1 - 1/2) := by
    unfold pairDelta
    dsimp only
    rw [hs1, hE, hk1]
  have hd2 : pairDelta ⟨"b", 1000, 20, 2⟩ ⟨"a", 1000, 0, 1⟩
      = (16 + 16 * Real.exp (-1)) * (0 - 1/2) := by
    unfold pairDelta
    dsimp only
    rw [hs2, hE, hk2]
  rw [hd1, hd2]
  have hlt : Real.exp (-1) < 1 := by
    have h := Real.exp_lt_exp.mpr (show (-1:ℝ) < 0 by norm_num)
    rwa [Real.exp_zero] at h
  have hgt : (0:ℝ) < 32 * (1 - 1/2) + (16 + 16 * Real.exp (-1)) * (0 - 1/2) := by
    nlinarith
  exact ne_of_gt hgt

/-- C1, amended: when every participant has the same K factor (for example
equal games-played counts), the unrounded pairwise deltas of
calculateEloChanges sum to exactly 0.  In general the per-pair sum is
(k_i - k_j) * (S_i - E_i), which need not vanish. -/
theorem C1_zero_sum_equal_K (ps : List Player) (c : ℝ)
    (hK : ∀ p ∈ ps, getKFactor p.gamesPlayed = c) :
    totalUnroundedDelta ps = 0 := by
  classical
  unfold totalUnroundedDelta unroundedDelta
  have hstep : ∀ i : Fin ps.length,
      (∑ j in Finset.univ.erase i, pairDelta (ps.get i) (ps.get j))
        = ∑ j, pairDelta (ps.get i) (ps.get j) :=
    fun i => Finset.sum_erase _ (pairDelta_self _)
  rw [Finset.sum_congr rfl (fun i _ => hstep i)]
  have hpair : ∀ i j : Fin ps.length,
      pairDelta (ps.get i) (ps.get j) + pairDelta (ps.get j) (ps.get i) = 0 := by
    intro i j
    apply pairDelta_add_of_K_eq
    rw [hK _ (ps.get_mem i.1 i.2), hK _ (ps.get_mem j.1 j.2)]
  have hswap : (∑ i, ∑ j, pairDelta (ps.get i) (ps.get j))
      = ∑ i, ∑ j, pairDelta (ps.get j) (ps.get i) := Finset.sum_comm
  have hzero : (∑ i : Fin ps.length, ∑ j : Fin ps.length,
      (pairDelta (ps.get i) (ps.get j) + pairDelta (ps.get j) (ps.get i))) = 0 :=
    Finset.sum_eq_zero fun i _ => Finset.sum_eq_zero fun j _ => hpair i j
  have hsplit : (∑ i : Fin ps.length, ∑ j : Fin ps.length,
      (pairDelta (ps.get i) (ps.get j) + pairDelta (ps.get j) (ps.get i)))
      = (∑ i, ∑ j, pairDelta (ps.get i) (ps.get j))
        + ∑ i, ∑ j, pairDelta (ps.get j) (ps.get i) := by
    rw [← Finset.sum_add_distrib]
    exact Finset.sum_congr rfl fun i _ => Finset.sum_add_distrib
  linarith [hzero, hsplit, hswap]

/-- C1 witness: equal games-played counts (both 5) give a zero total. -/
theorem C1_zero_sum_equal_K_witness :
    (∀ p ∈ [(⟨"a", 1200, 5, 1⟩ : Player), ⟨"b", 1000, 5, 2⟩],
        getKFactor p.gamesPlayed = getKFactor 5) ∧
    totalUnroundedDelta [(⟨"a", 1200, 5, 1⟩ : Player), ⟨"b", 1000, 5, 2⟩] = 0 := by
  have hK : ∀ p ∈ [(⟨"a", 1200, 5, 1⟩ : Player), ⟨"b", 1000, 5, 2⟩],
      getKFactor p.gamesPlayed = getKFactor 5 := by
    intro p hp
    simp only [List.mem_cons, List.not_mem_nil, or_false] at hp
    rcases hp with rfl | rfl <;> rfl
  exact ⟨hK, C1_zero_sum_equal_K _ _ hK⟩

/-- Embeds the Plackett-Luce gradient and Hessian loop of computeWHR,
src/unnamed/part_004 lines 108-126.  The arguments are the id of the player
whose latent value is being updated, that player strength
gi_strength = exp r_i, the participants of the game as (playerId, gamma)
pairs already sorted ascending by position (the code sorts parts at line 93
and then only reads pid and gamma), and the current pool sum.  The loop runs
over rounds k < parts.length - 1, accumulates fraction = gi_strength / pool,
adds (1 - fraction) to the gradient if the player eliminated this round is
the player of interest and -fraction otherwise, subtracts
fraction * (1 - fraction) from the Hessian, removes the eliminated gamma
from the pool, and breaks once the player of interest was eliminated. -/
def plGradHess (pid : String) (s : ℝ) : List (String × ℝ) → ℝ → ℝ × ℝ
  | [], _ => (0, 0)
  | [_], _ => (0, 0)
  | p :: q :: rest, pool =>
    if p.1 = pid then (1 - s / pool, -((s / pool) * (1 - s / pool)))
    else
      (-(s / pool) + (plGradHess pid s (q :: rest) (pool - p.2)).1,
       -((s / pool) * (1 - s / pool)) + (plGradHess pid s (q :: rest) (pool - p.2)).2)

/-- C2 counterexample.  Tied pair pA (rating 1200, newcomer, K = 32) and
pB (rating 1000, veteran, K = 16 + 16/e), both at normalized position 3.
Both actual scores are 1/2, but the net pairwise delta between exactly that
pair is (k1 - k2) * (1/2 - E1), which is strictly negative, not zero.
Moreover the WHR engine does not treat an equal-position pair symmetrically:
for two tied players of equal strength 1, the Plackett-Luce accumulation
gives gradient +1/2 to the player sorted first and -1/2 to the other,
resolving the tie into an arbitrary order instead of a draw. -/
theorem C2_counterexample :
    pairScore ⟨"a", 1200, 0, 3⟩ ⟨"b", 1000, 20, 3⟩ = 1/2 ∧
    pairScore ⟨"b", 1000, 20, 3⟩ ⟨"a", 1200, 0, 3⟩ = 1/2 ∧
    pairDelta ⟨"a", 1200, 0, 3⟩ ⟨"b", 1000, 20, 3⟩ +
      pairDelta ⟨"b", 1000, 20, 3⟩ ⟨"a", 1200, 0, 3⟩ ≠ 0 ∧
    (plGradHess "a" 1 [("a", 1), ("b", 1)] 2).1 = 1/2 ∧
    (plGradHess "b" 1 [("a", 1), ("b", 1)] 2).1 = -(1/2) := by
  have hs1 : pairScore ⟨"a", 1200, 0, 3⟩ ⟨"b", 1000, 20, 3⟩ = 1/2 := by
    unfold pairScore
    norm_num
  have hs2 : pairScore ⟨"b", 1000, 20, 3⟩ ⟨"a", 1200, 0, 3⟩ = 1/2 := by
    unfold pairScore
    norm_num
  refine ⟨hs1, hs2, ?_, ?_, ?_⟩
  · -- the net delta of the tied pair is (32 - (16 + 16/e)) * (1/2 - E1) < 0
    have hE : getExpectedScore 1200 1000 + getExpectedScore 1000 1200 = 1 :=
      getExpectedScore_add 1200 1000
    set t : ℝ := (10 : ℝ) ^ ((-1 : ℝ)/2) with ht
    have htpos : (0:ℝ) < t := Real.rpow_pos_of_pos (by norm_num) _
    have htlt : t < 1 :=
      Real.rpow_lt_one_of_one_lt_of_neg (by norm_num) (by norm_num)
    have hE1 : getExpectedScore 1200 1000 = 1 / (1 + t) := by
      unfold getExpectedScore
      rw [show ((1000:ℝ) - 1200)/400 = (-1:ℝ)/2 by norm_num]
    have hE1gt : 1/2 < getExpectedScore 1200 1000 := by
      rw [hE1]
      rw [lt_div_iff₀ (by linarith : (0:ℝ) < 1 + t)]
      linarith
    have hexp : Real.exp (-1) < 1 := by
      have h := Real.exp_lt_exp.mpr (show (-1:ℝ) < 0 by norm_num)
      rwa [Real.exp_zero] at h
    have hk1 : getKFactor 0 = 32 := by
      unfold getKFactor K_MIN K_MAX K_DECAY_RATE
      norm_num
    have hk2 : getKFactor 20 = 16 + 16 * Real.exp (-1) := by
      unfold getKFactor K_MIN K_MAX K_DECAY_RATE
      norm_num
    have hval : pairDelta ⟨"a", 1200, 0, 3⟩ ⟨"b", 1000, 20, 3⟩ +
        pairDelta ⟨"b", 1000, 20, 3⟩ ⟨"a", 1200, 0, 3⟩
        = (32 - (16 + 16 * Real.exp (-1))) * (1/2 - getExpectedScore 1200 1000) := by
      unfold pairDelta
      dsimp only
      rw [hs1, hs2, hk1, hk2]
      have : getExpectedScore 1000 1200 = 1 - getExpectedScore 1200 1000 := by
        linarith
      rw [this]
      ring
    rw [hval]
    apply ne_of_lt
    apply mul_neg_of_pos_of_neg
    · nlinarith
    · linarith
  · have hne : plGradHess "a" 1 [("a", 1), ("b", 1)] 2
        = (1 - 1 / 2, -((1 / 2) * (1 - 1 / 2))) := by
      unfold plGradHess
      rw [if_pos rfl]
    rw [hne]
    norm_num
  · have hcond : ¬ ((("a" : String), (1:ℝ)).1 = "b") := by decide
    have h0 : plGradHess "b" 1 [("b", 1)] (2 - (("a" : String), (1:ℝ)).2) = (0, 0) := rfl
    have hne : plGradHess "b" 1 [("a", 1), ("b", 1)] 2
        = (-(1 / 2) + (0:ℝ), -((1 / 2) * (1 - 1 / 2)) + (0:ℝ)) := by
      unfold plGradHess
      rw [if_neg hcond, h0]
    rw [hne]
    norm_num

/-- C2, amended: two players with identical normalizedPosition produce
S = 1/2 for each other in the pairwise engine, and the net pairwise delta
between exactly that pair is zero whenever the two have equal K factors
(in general it is (k_p - k_q) * (1/2 - E_p) and can be nonzero).  The
expected-rank engine has no per-pair actual score, and the WHR engine
resolves the tie into the sorted order rather than symmetrically. -/
theorem C2_tie_draw (p q : Player) (htie : p.position = q.position) :
    pairScore p q = 1/2 ∧ pairScore q p = 1/2 ∧
    (getKFactor p.gamesPlayed = getKFactor q.gamesPlayed →
      pairDelta p q + pairDelta q p = 0) := by
  have h1 : pairScore p q = 1/2 := by
    unfold pairScore
    rw [htie]
    simp
  have h2 : pairScore q p = 1/2 := by
    unfold pairScore
    rw [htie]
    simp
  exact ⟨h1, h2, fun hk => pairDelta_add_of_K_eq p q hk⟩

/-- C2 witness: a concrete tied pair with equal games-played counts. -/
theorem C2_tie_draw_witness :
    pairScore ⟨"x", 1200, 5, 2⟩ ⟨"y", 1000, 5, 2⟩ = 1/2 ∧
    pairScore ⟨"y", 1000, 5, 2⟩ ⟨"x", 1200, 5, 2⟩ = 1/2 ∧
    pairDelta ⟨"x", 1200, 5, 2⟩ ⟨"y", 1000, 5, 2⟩ +
      pairDelta ⟨"y", 1000, 5, 2⟩ ⟨"x", 1200, 5, 2⟩ = 0 :=
  ⟨(C2_tie_draw ⟨"x", 1200, 5, 2⟩ ⟨"y", 1000, 5, 2⟩ rfl).1,
   (C2_tie_draw ⟨"x", 1200, 5, 2⟩ ⟨"y", 1000, 5, 2⟩ rfl).2.1,
   (C2_tie_draw ⟨"x", 1200, 5, 2⟩ ⟨"y", 1000, 5, 2⟩ rfl).2.2 rfl⟩

/-- Raw per-game elimination entry consumed by normalizeRankings,
src/ALGORITHM.md lines 357-359: the same playerId may appear several times
(rejoin mechanic).  Elimination indices are JS numbers holding integers;
they are modelled as rationals so the normalizer stays exact. -/
structure RawRanking where
  playerId : String
  position : ℚ
deriving DecidableEq

/-- Output record of normalizeRankings, src/ALGORITHM.md line 359. -/
structure NormalizedRanking where
  playerId : String
  normalizedPosition : ℚ
  rawPositions : List ℚ
deriving DecidableEq

/-- The multiset of elimination indices of one player, in input order:
what the playerPositions record of src/ALGORITHM.md lines 360-369 stores
under the key pid. -/
def playerPositions (raw : List RawRanking) (pid : String) : List ℚ :=
  (raw.filter (fun r => r.playerId = pid)).map (fun r => r.position)

/-- One forEach step of the grouping loop, src/ALGORITHM.md lines 363-368:
if the key already exists, push the position onto its list, otherwise append
a fresh singleton entry (JS record keys keep insertion order). -/
def addPosition (acc : List (String × List ℚ)) (pid : String) (pos : ℚ) :
    List (String × List ℚ) :=
  if pid ∈ acc.map Prod.fst then
    acc.map (fun e => if e.1 = pid then (e.1, e.2 ++ [pos]) else e)
  else acc ++ [(pid, [pos])]

/-- The grouping loop of normalizeRankings, src/ALGORITHM.md lines 360-369. -/
def groupPositions (raw : List RawRanking) : List (String × List ℚ) :=
  raw.foldl (fun acc r => addPosition acc r.playerId r.position) []

/-- The distinct player ids of the input in order of first appearance:
the key order of the JS record built by the grouping loop. -/
def firstAppearanceKeys (raw : List RawRanking) : List String :=
  raw.foldl (fun acc r => if r.playerId ∈ acc then acc else acc ++ [r.playerId]) []

lemma playerPositions_append (l : List RawRanking) (r : RawRanking) (pid : String) :
    playerPositions (l ++ [r]) pid
      = playerPositions l pid ++ (if r.playerId = pid then [r.position] else []) := by
  by_cases h : r.playerId = pid <;>
    simp [playerPositions, List.filter_append, h]

lemma firstAppearanceKeys_append (l : List RawRanking) (r : RawRanking) :
    firstAppearanceKeys (l ++ [r])
      = if r.playerId ∈ firstAppearanceKeys l then firstAppearanceKeys l
        else firstAppearanceKeys l ++ [r.playerId] := by
  simp [firstAppearanceKeys, List.foldl_append]

lemma mem_firstAppearanceKeys (raw : List RawRanking) :
    ∀ pid, pid ∈ firstAppearanceKeys raw ↔ ∃ r ∈ raw, r.playerId = pid := by
  induction raw using List.reverseRecOn with
  | nil => intro pid; simp [firstAppearanceKeys]
  | append_singleton l r ih =>
    intro pid
    rw [firstAppearanceKeys_append]
    by_cases h : r.playerId ∈ firstAppearanceKeys l
    · rw [if_pos h, ih pid]
      have hQP : r.playerId = pid → (∃ x ∈ l, x.playerId = pid) :=
        fun he => he ▸ (ih r.playerId).mp h
      simp only [List.mem_append, List.mem_singleton]
      constructor
      · intro ⟨x, hx, hxe⟩; exact ⟨x, Or.inl hx, hxe⟩
      · rintro ⟨x, hx | hx, hxe⟩
        · exact ⟨x, hx, hxe⟩
        · subst hx; exact hQP hxe
    · rw [if_neg h, List.mem_append, List.mem_singleton, ih pid]
      simp only [List.mem_append, List.mem_singleton]
      constructor
      · rintro (⟨x, hx, hxe⟩ | rfl)
        · exact ⟨x, Or.inl hx, hxe⟩
        · exact ⟨r, Or.inr rfl, rfl⟩
      · rintro ⟨x, hx | hx, hxe⟩
        · exact Or.inl ⟨x, hx, hxe⟩
        · subst hx; exact Or.inr hxe.symm

lemma nodup_firstAppearanceKeys (raw : List RawRanking) :
    (firstAppearanceKeys raw).Nodup := by
  induction raw using List.reverseRecOn with
  | nil => simp [firstAppearanceKeys]
  | append_singleton l r ih =>
    rw [firstAppearanceKeys_append]
    by_cases h : r.playerId ∈ firstAppearanceKeys l
    · rwa [if_pos h]
    · rw [if_neg h]
      simp [List.nodup_append, ih, h]

/-- The grouping loop builds exactly one entry per distinct player, keyed in
first-appearance order, holding all elimination indices of that player in
input order. -/
lemma groupPositions_eq (raw : List RawRanking) :
    groupPositions raw
      = (firstAppearanceKeys raw).map (fun pid => (pid, playerPositions raw pid)) := by
  induction raw using List.reverseRecOn with
  | nil => rfl
  | append_singleton l r ih =>
    have hg : groupPositions (l ++ [r])
        = addPosition (groupPositions l) r.playerId r.position := by
      simp [groupPositions, List.foldl_append]
    rw [hg, ih, firstAppearanceKeys_append]
    by_cases h : r.playerId ∈ firstAppearanceKeys l
    · have hmem : r.playerId
          ∈ ((firstAppearanceKeys l).map
              (fun pid => (pid, playerPositions l pid))).map Prod.fst := by
        simpa [List.map_map, Function.comp] using h
      rw [addPosition, if_pos hmem, if_pos h, List.map_map]
      apply List.map_congr_left
      intro pid _
      by_cases hpe : r.playerId = pid
      · subst hpe
        simp [Function.comp, playerPositions_append]
      · have hpe2 : pid ≠ r.playerId := fun he => hpe he.symm
        simp [Function.comp, hpe2, playerPositions_append, hpe]
    · have hmem : r.playerId
          ∉ ((firstAppearanceKeys l).map
              (fun pid => (pid, playerPositions l pid))).map Prod.fst := by
        simpa [List.map_map, Function.comp] using h
      rw [addPosition, if_neg hmem, if_neg h, List.map_append]
      congr 1
      · apply List.map_congr_left
        intro pid hpid
        have hpe : r.playerId ≠ pid := fun he => h (he ▸ hpid)
        simp [playerPositions_append, hpe]
      · have hnone : ∀ a ∈ l, ¬ (a.playerId = r.playerId) := by
          intro a ha he
          exact h ((mem_firstAppearanceKeys l r.playerId).mpr ⟨a, ha, he⟩)
        have hfil : l.filter (fun rr => rr.playerId = r.playerId) = [] := by
          simp only [List.filter_eq_nil_iff]
          intro a ha
          simpa using hnone a ha
        have hempty : playerPositions l r.playerId = [] := by
          unfold playerPositions
          rw [hfil]
          rfl
        simp only [List.map_singleton]
        rw [playerPositions_append, hempty]
        simp

/-- Comparator used for the final sort of normalizeRankings,
src/ALGORITHM.md line 383: ascending by normalizedPosition. -/
def byNormalizedPosition (a b : NormalizedRanking) : Prop :=
  a.normalizedPosition ≤ b.normalizedPosition

instance : DecidableRel byNormalizedPosition :=
  fun a b => inferInstanceAs (Decidable (a.normalizedPosition ≤ b.normalizedPosition))

instance : IsTotal NormalizedRanking byNormalizedPosition :=
  ⟨fun a b => le_total a.normalizedPosition b.normalizedPosition⟩

instance : IsTrans NormalizedRanking byNormalizedPosition :=
  ⟨fun _ _ _ hab hbc => le_trans hab hbc⟩

/-- Embeds normalizeRankings, src/ALGORITHM.md lines 357-385: group the
elimination indices by player (in input order), average each list, sort each
rawPositions list ascending, and sort the output ascending by
normalizedPosition.  JS Array.prototype.sort is stable; insertionSort is the
matching stable sort.  The snippet contains no validation branch: every
input, the empty list and non-positive indices included, flows through the
same three steps. -/
def normalizeRankings (raw : List RawRanking) : List NormalizedRanking :=
  List.insertionSort byNormalizedPosition
    ((groupPositions raw).map (fun e =>
      ⟨e.1, e.2.sum / (e.2.length : ℚ), List.insertionSort (· ≤ ·) e.2⟩))

lemma normalizeRankings_perm (raw : List RawRanking) :
    (normalizeRankings raw).Perm
      ((groupPositions raw).map (fun e =>
        (⟨e.1, e.2.sum / (e.2.length : ℚ),
          List.insertionSort (· ≤ ·) e.2⟩ : NormalizedRanking))) :=
  List.perm_insertionSort _ _

/-- Every output record carries the mean of the elimination indices of its
player and an ascending copy of those indices. -/
lemma mem_normalizeRankings (raw : List RawRanking) (rec : NormalizedRanking)
    (hrec : rec ∈ normalizeRankings raw) :
    rec.normalizedPosition
      = (playerPositions raw rec.playerId).sum
          / ((playerPositions raw rec.playerId).length : ℚ) ∧
    rec.rawPositions.Perm (playerPositions raw rec.playerId) ∧
    rec.rawPositions.Sorted (· ≤ ·) := by
  have hrec2 := ((normalizeRankings_perm raw).mem_iff).mp hrec
  obtain ⟨e, he, heq⟩ := List.mem_map.mp hrec2
  rw [groupPositions_eq] at he
  obtain ⟨pid, _, he2⟩ := List.mem_map.mp he
  subst he2
  subst heq
  refine ⟨rfl, List.perm_insertionSort _ _, List.sorted_insertionSort _ _⟩

lemma normalizeRankings_comp_id (raw : List RawRanking) :
    ((NormalizedRanking.playerId ∘ fun e : String × List ℚ =>
      (⟨e.1, e.2.sum / (e.2.length : ℚ),
        List.insertionSort (· ≤ ·) e.2⟩ : NormalizedRanking)) ∘
      fun pid => (pid, playerPositions raw pid)) = id := rfl

lemma normalizeRankings_ids_nodup (raw : List RawRanking) :
    ((normalizeRankings raw).map NormalizedRanking.playerId).Nodup := by
  have hperm := (normalizeRankings_perm raw).map NormalizedRanking.playerId
  rw [hperm.nodup_iff]
  rw [groupPositions_eq, List.map_map, List.map_map,
    normalizeRankings_comp_id raw, List.map_id]
  exact nodup_firstAppearanceKeys raw

lemma mem_normalizeRankings_ids (raw : List RawRanking) (pid : String) :
    pid ∈ (normalizeRankings raw).map NormalizedRanking.playerId
      ↔ ∃ r ∈ raw, r.playerId = pid := by
  have hperm := (normalizeRankings_perm raw).map NormalizedRanking.playerId
  rw [hperm.mem_iff]
  rw [groupPositions_eq, List.map_map, List.map_map,
    normalizeRankings_comp_id raw, List.map_id]
  exact mem_firstAppearanceKeys raw pid

lemma normalizeRankings_sorted (raw : List RawRanking) :
    ((normalizeRankings raw).map NormalizedRanking.normalizedPosition).Sorted (· ≤ ·) := by
  have hs : (normalizeRankings raw).Sorted byNormalizedPosition :=
    List.sorted_insertionSort _ _
  exact hs.map NormalizedRanking.normalizedPosition (fun a b h => h)

/-- C7: on every non-empty input the normalizer emits one record per
distinct player whose normalizedPosition is the arithmetic mean of the
elimination indices of that player, whose rawPositions are those indices
sorted ascending, and the output is ordered non-decreasing by
normalizedPosition; a single-elimination player keeps exactly their index,
and the indices 1, 7, 9 give 17/3. -/
theorem C7_normalizer (raw : List RawRanking) (_hne : raw ≠ []) :
    (∀ rec ∈ normalizeRankings raw,
      rec.normalizedPosition
        = (playerPositions raw rec.playerId).sum
            / ((playerPositions raw rec.playerId).length : ℚ) ∧
      rec.rawPositions.Perm (playerPositions raw rec.playerId) ∧
      rec.rawPositions.Sorted (· ≤ ·)) ∧
    ((normalizeRankings raw).map NormalizedRanking.playerId).Nodup ∧
    (∀ pid, pid ∈ (normalizeRankings raw).map NormalizedRanking.playerId
        ↔ ∃ r ∈ raw, r.playerId = pid) ∧
    ((normalizeRankings raw).map NormalizedRanking.normalizedPosition).Sorted (· ≤ ·) ∧
    normalizeRankings [⟨"solo", 4⟩] = [⟨"solo", 4, [4]⟩] ∧
    normalizeRankings [⟨"r", 1⟩, ⟨"r", 7⟩, ⟨"r", 9⟩] = [⟨"r", 17/3, [1, 7, 9]⟩] := by
  refine ⟨fun rec hrec => mem_normalizeRankings raw rec hrec,
    normalizeRankings_ids_nodup raw,
    fun pid => mem_normalizeRankings_ids raw pid,
    normalizeRankings_sorted raw, ?_, ?_⟩
  · norm_num [normalizeRankings, groupPositions, addPosition,
      List.insertionSort, List.orderedInsert, byNormalizedPosition]
  · norm_num [normalizeRankings, groupPositions, addPosition,
      List.insertionSort, List.orderedInsert, byNormalizedPosition]

/-- C7 witness: the rejoin example with indices 1, 7, 9. -/
theorem C7_normalizer_witness :
    (([⟨"r", 1⟩, ⟨"r", 7⟩, ⟨"r", 9⟩] : List RawRanking) ≠ []) ∧
    normalizeRankings [⟨"r", 1⟩, ⟨"r", 7⟩, ⟨"r", 9⟩] = [⟨"r", 17/3, [1, 7, 9]⟩] :=
  ⟨by simp, (C7_normalizer [⟨"r", 1⟩, ⟨"r", 7⟩, ⟨"r", 9⟩] (by simp)).2.2.2.2.2⟩

/-- C3 counterexample: normalizeRankings (as printed in src/ALGORITHM.md
lines 357-385) has no validation branch.  The empty input returns the empty
list, and non-positive elimination indices (0 and -3) are averaged like any
other value; no error is signalled in either case. -/
theorem C3_counterexample :
    normalizeRankings [] = [] ∧
    normalizeRankings [⟨"a", 0⟩] = [⟨"a", 0, [0]⟩] ∧
    normalizeRankings [⟨"a", -3⟩] = [⟨"a", -3, [-3]⟩] := by
  refine ⟨rfl, ?_, ?_⟩
  · norm_num [normalizeRankings, groupPositions, addPosition,
      List.insertionSort, List.orderedInsert, byNormalizedPosition]
  · norm_num [normalizeRankings, groupPositions, addPosition,
      List.insertionSort, List.orderedInsert, byNormalizedPosition]

/-- C3, amended: normalizeRankings performs no input validation.  It is a
total function: on every input, including the empty list and lists with
non-positive elimination indices, it returns one record per distinct
playerId, and the empty input yields the empty output. -/
theorem C3_no_validation (raw : List RawRanking) :
    ((normalizeRankings raw).map NormalizedRanking.playerId).Nodup ∧
    (∀ pid, pid ∈ (normalizeRankings raw).map NormalizedRanking.playerId
        ↔ ∃ r ∈ raw, r.playerId = pid) ∧
    (raw = [] → normalizeRankings raw = []) :=
  ⟨normalizeRankings_ids_nodup raw,
   fun pid => mem_normalizeRankings_ids raw pid,
   fun h => by subst h; rfl⟩

/-- C3 witness: the amended statement applied to the empty input. -/
theorem C3_no_validation_witness :
    (([] : List RawRanking) = []) ∧ normalizeRankings ([] : List RawRanking) = [] :=
  ⟨rfl, (C3_no_validation []).2.2 rfl⟩

/-- Participant record consumed by calculateCFChanges,
src/lib/multiplayer.ts line 55. -/
structure CFPlayer where
  id : String
  rating : ℝ
  gamesPlayed : ℝ
  position : ℝ

/-- Embeds pBeat, src/lib/multiplayer.ts lines 25-27: the probability that
the player rated ratingJ beats the player rated ratingI. -/
def pBeat (ratingJ ratingI : ℝ) : ℝ :=
  1 / (1 + (10 : ℝ) ^ ((ratingI - ratingJ) / 400))

/-- Embeds the expected-rank loop of calculateCFChanges,
src/lib/multiplayer.ts lines 62-66: start at 1 and add pBeat for every
entry whose id differs from the id of the player of interest. -/
def cfExpectedRank (p : CFPlayer) (players : List CFPlayer) : ℝ :=
  players.foldl
    (fun acc other => if other.id = p.id then acc else acc + pBeat other.rating p.rating) 1

/-- Embeds calculateCFChanges, src/lib/multiplayer.ts lines 54-80: one
record entry per participant (ids assumed pairwise distinct), holding
Math.round (K * (expectedRank - position)). -/
def calculateCFChanges (players : List CFPlayer) : List (String × ℤ) :=
  players.map (fun p =>
    (p.id, jsRound (getKFactor p.gamesPlayed * (cfExpectedRank p players - p.position))))

/-- The K factor is strictly positive. -/
lemma getKFactor_pos (n : ℝ) : 0 < getKFactor n := by
  unfold getKFactor K_MIN K_MAX K_DECAY_RATE
  nlinarith [Real.exp_pos (-n / 20)]

/-- The skip-by-id foldl of the expected-rank loop equals 1 plus the sum of
pBeat over the entries with a different id. -/
lemma cfExpectedRank_eq (p : CFPlayer) (players : List CFPlayer) :
    cfExpectedRank p players
      = 1 + ((players.filter (fun q => ¬ (q.id = p.id))).map
          (fun q => pBeat q.rating p.rating)).sum := by
  unfold cfExpectedRank
  suffices h : ∀ (l : List CFPlayer) (a : ℝ),
      l.foldl (fun acc other =>
        if other.id = p.id then acc else acc + pBeat other.rating p.rating) a
        = a + ((l.filter (fun q => ¬ (q.id = p.id))).map
            (fun q => pBeat q.rating p.rating)).sum by
    exact h players 1
  intro l
  induction l with
  | nil => intro a; simp
  | cons q l ih =>
    intro a
    by_cases hq : q.id = p.id
    · simp only [List.foldl_cons]
      rw [if_pos hq, List.filter_cons, if_neg (by simp [hq])]
      exact ih a
    · simp only [List.foldl_cons]
      rw [if_neg hq, List.filter_cons, if_pos (by simp [hq])]
      rw [ih (a + pBeat q.rating p.rating), List.map_cons, List.sum_cons]
      ring

/-- C8: every participant of calculateCFChanges receives
round (K_i * (ExpectedRank_i - actualRank_i)) with
ExpectedRank_i = 1 + the sum over the other players of
1 / (1 + 10 ^ ((R_i - R_j) / 400)), K_i the same decayed K factor as the
pairwise engine, and actualRank_i the normalized position; and a player
whose actual rank is below their expected rank gets a strictly positive
pre-rounding change. -/
theorem C8_cf_changes (players : List CFPlayer) (p : CFPlayer) (hp : p ∈ players) :
    cfExpectedRank p players
      = 1 + ((players.filter (fun q => ¬ (q.id = p.id))).map
          (fun q => 1 / (1 + (10 : ℝ) ^ ((p.rating - q.rating) / 400)))).sum ∧
    (p.id, jsRound (getKFactor p.gamesPlayed *
        (cfExpectedRank p players - p.position))) ∈ calculateCFChanges players ∧
    (p.position < cfExpectedRank p players →
      0 < getKFactor p.gamesPlayed * (cfExpectedRank p players - p.position)) := by
  refine ⟨cfExpectedRank_eq p players, ?_, ?_⟩
  · exact List.mem_map_of_mem _ hp
  · intro hlt
    exact mul_pos (getKFactor_pos p.gamesPlayed) (by linarith)

/-- C8 witness: two equally rated newcomers; the winner expects rank 1.5,
finishes 1st, and receives a strictly positive change. -/
theorem C8_cf_changes_witness :
    ((⟨"p", 1000, 0, 1⟩ : CFPlayer) ∈
        [(⟨"p", 1000, 0, 1⟩ : CFPlayer), ⟨"q", 1000, 0, 2⟩]) ∧
    (1 : ℝ) < cfExpectedRank ⟨"p", 1000, 0, 1⟩
        [⟨"p", 1000, 0, 1⟩, ⟨"q", 1000, 0, 2⟩] ∧
    ("p", jsRound (getKFactor 0 * (cfExpectedRank ⟨"p", 1000, 0, 1⟩
        [⟨"p", 1000, 0, 1⟩, ⟨"q", 1000, 0, 2⟩] - 1)))
      ∈ calculateCFChanges [⟨"p", 1000, 0, 1⟩, ⟨"q", 1000, 0, 2⟩] ∧
    0 < getKFactor 0 * (cfExpectedRank ⟨"p", 1000, 0, 1⟩
        [⟨"p", 1000, 0, 1⟩, ⟨"q", 1000, 0, 2⟩] - 1) := by
  have hmem : (⟨"p", 1000, 0, 1⟩ : CFPlayer) ∈
      [(⟨"p", 1000, 0, 1⟩ : CFPlayer), ⟨"q", 1000, 0, 2⟩] :=
    List.mem_cons_self _ _
  have hpb : pBeat (1000 : ℝ) 1000 = 1/2 := by
    unfold pBeat
    rw [show ((1000:ℝ) - 1000) / 400 = 0 by norm_num, Real.rpow_zero]
    norm_num
  have hval : cfExpectedRank ⟨"p", 1000, 0, 1⟩
      [⟨"p", 1000, 0, 1⟩, ⟨"q", 1000, 0, 2⟩] = 1 + pBeat 1000 1000 := by
    unfold cfExpectedRank
    simp only [List.foldl_cons, List.foldl_nil]
    simp
  have hlt : (1 : ℝ) < cfExpectedRank ⟨"p", 1000, 0, 1⟩
      [⟨"p", 1000, 0, 1⟩, ⟨"q", 1000, 0, 2⟩] := by
    rw [hval, hpb]
    norm_num
  exact ⟨hmem, hlt,
    (C8_cf_changes _ _ hmem).2.1,
    (C8_cf_changes _ _ hmem).2.2 hlt⟩

/-- Round index at which the player of interest is chosen from the sorted
pool (0-based); equals the list length when the player does not appear.
This is the round after which the loop of src/unnamed/part_004 line 125
stops accumulating. -/
def plStopIdx (pid : String) : List (String × ℝ) → ℕ
  | [] => 0
  | p :: rest => if p.1 = pid then 0 else plStopIdx pid rest + 1

/-- Fraction of round k per the spec: the strength of the player of
interest divided by the pool strength sum of the players still remaining
at round k (the suffix of the sorted parts list from index k). -/
def roundFrac (s : ℝ) (parts : List (String × ℝ)) (k : ℕ) : ℝ :=
  s / ((parts.drop k).map Prod.snd).sum

/-- Number of rounds in which the player of interest accumulates: the loop
runs over rounds k < parts.length - 1 and stops after the round at which
the player was eliminated. -/
def plRounds (pid : String) (parts : List (String × ℝ)) : ℕ :=
  min (plStopIdx pid parts + 1) (parts.length - 1)

/-- Spec-side gradient: over every accumulating round, (1 - fraction) at
the round where the player of interest is the one eliminated and
-fraction otherwise. -/
def specGrad (pid : String) (s : ℝ) (parts : List (String × ℝ)) : ℝ :=
  ∑ k in Finset.range (plRounds pid parts),
    (if k = plStopIdx pid parts then 1 - roundFrac s parts k
     else -(roundFrac s parts k))

/-- Spec-side Hessian: -fraction * (1 - fraction) in every accumulating
round. -/
def specHess (pid : String) (s : ℝ) (parts : List (String × ℝ)) : ℝ :=
  ∑ k in Finset.range (plRounds pid parts),
    -(roundFrac s parts k * (1 - roundFrac s parts k))

lemma plStopIdx_cons_of_ne {p : String × ℝ} {pid : String} (rest : List (String × ℝ))
    (hp : ¬ p.1 = pid) : plStopIdx pid (p :: rest) = plStopIdx pid rest + 1 := by
  simp [plStopIdx, hp]

lemma plRounds_cons_cons {p q : String × ℝ} {pid : String}
    (rest : List (String × ℝ)) (hp : ¬ p.1 = pid) :
    plRounds pid (p :: q :: rest) = plRounds pid (q :: rest) + 1 := by
  rw [plRounds, plRounds, plStopIdx_cons_of_ne _ hp]
  simp only [List.length_cons]
  omega

lemma specGrad_cons {p q : String × ℝ} {pid : String} (s : ℝ)
    (rest : List (String × ℝ)) (hp : ¬ p.1 = pid) :
    specGrad pid s (p :: q :: rest)
      = -(roundFrac s (p :: q :: rest) 0) + specGrad pid s (q :: rest) := by
  have hstop := plStopIdx_cons_of_ne (q :: rest) hp
  have hshift : ∀ k,
      (if k + 1 = plStopIdx pid (p :: q :: rest)
        then 1 - roundFrac s (p :: q :: rest) (k + 1)
        else -(roundFrac s (p :: q :: rest) (k + 1)))
      = (if k = plStopIdx pid (q :: rest) then 1 - roundFrac s (q :: rest) k
         else -(roundFrac s (q :: rest) k)) := by
    intro k
    have hfr : roundFrac s (p :: q :: rest) (k + 1) = roundFrac s (q :: rest) k := rfl
    rw [hstop, hfr]
    by_cases hk : k = plStopIdx pid (q :: rest)
    · rw [if_pos (by omega), if_pos hk]
    · rw [if_neg (by omega), if_neg hk]
  rw [specGrad, plRounds_cons_cons rest hp, Finset.sum_range_succ']
  simp only [hshift]
  rw [if_neg (by rw [hstop]; omega)]
  rw [specGrad]
  ring

lemma specHess_cons {p q : String × ℝ} {pid : String} (s : ℝ)
    (rest : List (String × ℝ)) (hp : ¬ p.1 = pid) :
    specHess pid s (p :: q :: rest)
      = -(roundFrac s (p :: q :: rest) 0 * (1 - roundFrac s (p :: q :: rest) 0))
        + specHess pid s (q :: rest) := by
  have hshift : ∀ k,
      roundFrac s (p :: q :: rest) (k + 1) = roundFrac s (q :: rest) k := fun _ => rfl
  rw [specHess, plRounds_cons_cons rest hp, Finset.sum_range_succ']
  simp only [hshift]
  rw [specHess]
  ring

/-- The break-and-accumulate loop of computeWHR equals the spec-side
round-by-round sums, when started on the full pool sum. -/
lemma plGradHess_eq_spec : ∀ (parts : List (String × ℝ)) (pid : String) (s : ℝ),
    plGradHess pid s parts ((parts.map Prod.snd).sum)
      = (specGrad pid s parts, specHess pid s parts) := by
  intro parts
  induction parts with
  | nil =>
    intro pid s
    simp [plGradHess, specGrad, specHess, plRounds]
  | cons p tail ih =>
    intro pid s
    cases tail with
    | nil =>
      simp [plGradHess, specGrad, specHess, plRounds]
    | cons q rest =>
      by_cases hp : p.1 = pid
      · have hstop : plStopIdx pid (p :: q :: rest) = 0 := by simp [plStopIdx, hp]
        have hrounds : plRounds pid (p :: q :: rest) = 1 := by
          rw [plRounds, hstop]
          simp only [List.length_cons]
          omega
        have hfr : roundFrac s (p :: q :: rest) 0
            = s / (((p :: q :: rest).map Prod.snd).sum) := rfl
        simp only [plGradHess]
        rw [if_pos hp]
        rw [specGrad, specHess, hrounds, hstop, Finset.sum_range_one, if_pos rfl,
          Finset.sum_range_one, hfr]
      · have hsum : ((p :: q :: rest).map Prod.snd).sum - p.2
            = ((q :: rest).map Prod.snd).sum := by
          simp only [List.map_cons, List.sum_cons]
          ring
        simp only [plGradHess]
        rw [if_neg hp, hsum, ih pid s]
        rw [specGrad_cons s rest hp, specHess_cons s rest hp]
        have hfr : roundFrac s (p :: q :: rest) 0
            = s / (((p :: q :: rest).map Prod.snd).sum) := rfl
        rw [hfr]

/-- C4: in computeWHR the game-outcome gradient and Hessian are accumulated
round-by-round over the Plackett-Luce elimination decomposition.  With
latent values r and strengths exp (r j), at each round k at which the
player of interest is still in the remaining pool the fraction is
exp (r pid) divided by the sum of exp (r j) over the remaining pool; the
gradient gains (1 - fraction) at the round where that player is eliminated
and -fraction otherwise, the Hessian always gains -fraction*(1 - fraction),
and accumulation stops once that player has left the pool (and in any case
after parts.length - 1 rounds). -/
theorem C4_pl_grad_hess (pid : String) (r : String → ℝ) (pids : List String) :
    plGradHess pid (Real.exp (r pid)) (pids.map (fun j => (j, Real.exp (r j))))
        ((pids.map (fun j => Real.exp (r j))).sum)
      = (∑ k in Finset.range (plRounds pid (pids.map (fun j => (j, Real.exp (r j))))),
          (if k = plStopIdx pid (pids.map (fun j => (j, Real.exp (r j))))
            then 1 - Real.exp (r pid) / ((pids.drop k).map (fun j => Real.exp (r j))).sum
            else -(Real.exp (r pid) / ((pids.drop k).map (fun j => Real.exp (r j))).sum)),
         ∑ k in Finset.range (plRounds pid (pids.map (fun j => (j, Real.exp (r j))))),
          -((Real.exp (r pid) / ((pids.drop k).map (fun j => Real.exp (r j))).sum)
            * (1 - Real.exp (r pid) / ((pids.drop k).map (fun j => Real.exp (r j))).sum))) := by
  have hmap : ((pids.map (fun j => (j, Real.exp (r j)))).map Prod.snd)
      = pids.map (fun j => Real.exp (r j)) := by
    rw [List.map_map]
    rfl
  have hfr : ∀ k, roundFrac (Real.exp (r pid)) (pids.map (fun j => (j, Real.exp (r j)))) k
      = Real.exp (r pid) / ((pids.drop k).map (fun j => Real.exp (r j))).sum := by
    intro k
    rw [roundFrac, ← List.map_drop, List.map_map]
    rfl
  rw [← hmap, plGradHess_eq_spec]
  rw [specGrad, specHess]
  congr 1
  · apply Finset.sum_congr rfl
    intro k _
    rw [hfr]
  · apply Finset.sum_congr rfl
    intro k _
    rw [hfr]

/-- Participant entry of a WHR game, src/unnamed/part_004 line 17. -/
structure WHRPlayerEntry where
  playerId : String
  position : ℝ

/-- Input game record of computeWHR, src/unnamed/part_004 lines 14-18.
The playedAt Date is modelled by its epoch-millisecond timestamp. -/
structure WHRGame where
  gameId : String
  playedAt : ℤ
  players : List WHRPlayerEntry

instance : Inhabited WHRGame := ⟨⟨"", 0, []⟩⟩

/-- Output record of computeWHR, src/unnamed/part_004 lines 20-24, with
JS records modelled as association lists. -/
structure WHRResult where
  playerRatings : List (String × ℤ)
  gameSnapshots : List (String × List (String × ℤ))
  gameChanges : List (String × List (String × ℤ))

/-- Variance per day of the Wiener process, src/unnamed/part_004 line 31. -/
def W2_PER_DAY : ℝ := 0.3

/-- Fixed number of Newton sweeps, src/unnamed/part_004 line 32. -/
def ITERATIONS : ℕ := 100

/-- Embeds logToElo, src/unnamed/part_004 lines 35-37:
Math.round (1000 + r * 400 / ln 10). -/
def logToElo (x : ℝ) : ℤ := jsRound (1000 + x * 400 / Real.log 10)

/-- Comparator of the initial sort of computeWHR, src/unnamed/part_004
line 40: ascending by timestamp. -/
def byPlayedAt (a b : WHRGame) : Prop := a.playedAt ≤ b.playedAt

instance : DecidableRel byPlayedAt :=
  fun a b => inferInstanceAs (Decidable (a.playedAt ≤ b.playedAt))

instance : IsTotal WHRGame byPlayedAt := ⟨fun a b => le_total a.playedAt b.playedAt⟩

instance : IsTrans WHRGame byPlayedAt := ⟨fun _ _ _ hab hbc => le_trans hab hbc⟩

/-- The initial sort of computeWHR, src/unnamed/part_004 line 40; JS sort
with a numeric comparator is stable, matching insertionSort. -/
def sortGamesByTime (games : List WHRGame) : List WHRGame :=
  List.insertionSort byPlayedAt games

/-- The set allPids of src/unnamed/part_004 lines 42-43: distinct player
ids in first-appearance order over the sorted games (JS Set iteration
follows insertion order). -/
def collectPids (sorted : List WHRGame) : List String :=
  sorted.foldl (fun acc g =>
    g.players.foldl
      (fun acc2 p => if p.playerId ∈ acc2 then acc2 else acc2 ++ [p.playerId]) acc) []

/-- The per-player timeline pGames of src/unnamed/part_004 lines 46-50:
one game index per participation entry, scanning the sorted games in
order. -/
def pGamesAux (pid : String) : List WHRGame → ℕ → List ℕ
  | [], _ => []
  | g :: rest, gi =>
    ((g.players.filter (fun p => p.playerId = pid)).map (fun _ => gi))
      ++ pGamesAux pid rest (gi + 1)

def pGamesOf (sorted : List WHRGame) (pid : String) : List ℕ := pGamesAux pid sorted 0

/-- The day gaps pDays of src/unnamed/part_004 lines 53-62:
max 0.5 ((t_next - t_prev) / 86400000) over consecutive appearances. -/
def pDaysOf (sorted : List WHRGame) (pid : String) : List ℝ :=
  let gis := pGamesOf sorted pid
  (gis.zip gis.tail).map (fun ab =>
    max 0.5 ((((sorted.getD ab.2 default).playedAt
      - (sorted.getD ab.1 default).playedAt : ℤ) : ℝ) / 86400000))

/-- One inner Newton update of computeWHR, src/unnamed/part_004
lines 78-147: recompute the Plackett-Luce gradient and Hessian of entry li
of player pid from the current state, add the left and right Wiener prior
terms, and apply the damped step only when the Hessian is below -1e-6.
Parts carry (playerId, position, gamma); the loop after the stable sort by
position reads only playerId and gamma. -/
def whrUpdateEntry (sorted : List WHRGame) (rst : String → List ℝ)
    (pid : String) (li : ℕ) : String → List ℝ :=
  let gis := pGamesOf sorted pid
  let gi := gis.getD li 0
  let game := sorted.getD gi default
  let ri := (rst pid).getD li 0
  let s := Real.exp ri
  let parts := game.players.map (fun p =>
    (p.playerId, p.position,
      Real.exp ((rst p.playerId).getD ((pGamesOf sorted p.playerId).indexOf gi) 0)))
  let partsSorted := List.insertionSort (fun a b => a.2.1 ≤ b.2.1) parts
  let pool := (partsSorted.map (fun p => p.2.2)).sum
  let gh := plGradHess pid s (partsSorted.map (fun p => (p.1, p.2.2))) pool
  let pds := pDaysOf sorted pid
  let g2 := if 0 < li then
      gh.1 - (ri - (rst pid).getD (li - 1) 0) / (W2_PER_DAY * pds.getD (li - 1) 0)
    else gh.1
  let h2 := if 0 < li then gh.2 - 1 / (W2_PER_DAY * pds.getD (li - 1) 0) else gh.2
  let g3 := if li < gis.length - 1 then
      g2 - (ri - (rst pid).getD (li + 1) 0) / (W2_PER_DAY * pds.getD li 0)
    else g2
  let h3 := if li < gis.length - 1 then h2 - 1 / (W2_PER_DAY * pds.getD li 0) else h2
  let newRi := if h3 < -(1/1000000) then ri - g3 / h3 else ri
  fun x => if x = pid then (rst pid).set li newRi else rst x

/-- One full sweep of the Newton iteration, src/unnamed/part_004
lines 74-148: every player in allPids order, every timeline entry in
order, updated in place (Gauss-Seidel style). -/
def whrSweep (sorted : List WHRGame) (rst : String → List ℝ) : String → List ℝ :=
  (collectPids sorted).foldl (fun st pid =>
    (List.range (pGamesOf sorted pid).length).foldl
      (fun st2 li => whrUpdateEntry sorted st2 pid li) st) rst

/-- The initial latent state, src/unnamed/part_004 lines 65-68: all zeros. -/
def whrInit (sorted : List WHRGame) : String → List ℝ :=
  fun pid => List.replicate (pGamesOf sorted pid).length 0

/-- The converged latent state after the fixed number of sweeps,
src/unnamed/part_004 line 73. -/
def whrIterate (sorted : List WHRGame) : String → List ℝ :=
  (whrSweep sorted)^[ITERATIONS] (whrInit sorted)

/-- The result extraction of computeWHR, src/unnamed/part_004
lines 154-177: final rating per player from the last timeline entry, and
per game the snapshot and the change against the previous snapshot of the
same player (1000 before the first game). -/
def whrFromSorted (sorted : List WHRGame) : WHRResult :=
  let rf := whrIterate sorted
  ⟨(collectPids sorted).map (fun pid =>
      (pid, logToElo ((rf pid).getD ((rf pid).length - 1) 0))),
   (List.range sorted.length).map (fun gi =>
      ((sorted.getD gi default).gameId,
        (sorted.getD gi default).players.map (fun p =>
          (p.playerId,
            logToElo ((rf p.playerId).getD ((pGamesOf sorted p.playerId).indexOf gi) 0))))),
   (List.range sorted.length).map (fun gi =>
      ((sorted.getD gi default).gameId,
        (sorted.getD gi default).players.map (fun p =>
          (p.playerId,
            logToElo ((rf p.playerId).getD ((pGamesOf sorted p.playerId).indexOf gi) 0)
              - (if 0 < (pGamesOf sorted p.playerId).indexOf gi then
                  logToElo ((rf p.playerId).getD
                    ((pGamesOf sorted p.playerId).indexOf gi - 1) 0)
                else 1000)))))⟩

/-- Embeds computeWHR, src/unnamed/part_004 lines 39-178: sort the games by
timestamp, then run the whole batch computation on the sorted list.  The
function is total: no input is rejected. -/
def computeWHR (games : List WHRGame) : WHRResult :=
  whrFromSorted (sortGamesByTime games)

/-- A permutation class has at most one list sorted by a key that is
duplicate-free on it. -/
lemma eq_of_perm_of_sorted_key {α β : Type} [LinearOrder β] (key : α → β) :
    ∀ (l1 l2 : List α), l1.Perm l2 →
      l1.Sorted (fun a b => key a ≤ key b) →
      l2.Sorted (fun a b => key a ≤ key b) →
      (l1.map key).Nodup → l1 = l2 := by
  intro l1
  induction l1 with
  | nil =>
    intro l2 hperm _ _ _
    exact (hperm.symm.eq_nil).symm
  | cons a t1 ih =>
    intro l2 hperm hs1 hs2 hnd
    cases l2 with
    | nil => exact absurd hperm.eq_nil (by simp)
    | cons b t2 =>
      rcases List.sorted_cons.mp hs1 with ⟨ha1, ht1⟩
      rcases List.sorted_cons.mp hs2 with ⟨hb2, ht2⟩
      by_cases hab : a = b
      · subst hab
        have htp := hperm.cons_inv
        have hnd1 : (t1.map key).Nodup := (List.nodup_cons.mp hnd).2
        rw [ih t2 htp ht1 ht2 hnd1]
      · have hbmem : b ∈ t1 := by
          have : b ∈ a :: t1 := hperm.mem_iff.mpr (List.mem_cons_self b t2)
          rcases List.mem_cons.mp this with h | h
          · exact absurd h.symm hab
          · exact h
        have hamem : a ∈ t2 := by
          have : a ∈ b :: t2 := hperm.mem_iff.mp (List.mem_cons_self a t1)
          rcases List.mem_cons.mp this with h | h
          · exact absurd h hab
          · exact h
        have h1 : key a ≤ key b := ha1 b hbmem
        have h2 : key b ≤ key a := hb2 a hamem
        have hkey : key a = key b := le_antisymm h1 h2
        have : key a ∉ t1.map key := (List.nodup_cons.mp hnd).1
        exact absurd (hkey ▸ List.mem_map_of_mem key hbmem) this

/-- Chronological test fixture: game at epoch millisecond 0. -/
def gameA : WHRGame := ⟨"g1", 0, [⟨"a", 1⟩, ⟨"b", 2⟩]⟩

/-- Chronological test fixture: game one day later. -/
def gameB : WHRGame := ⟨"g2", 86400000, [⟨"a", 2⟩, ⟨"b", 1⟩]⟩

/-- C10 counterexample: presenting the two games out of chronological order
is neither rejected (computeWHR is total) nor does it change anything: the
engine sorts by timestamp first, so the out-of-order run returns exactly
the in-order result. -/
theorem C10_counterexample :
    sortGamesByTime [gameB, gameA] = [gameA, gameB] ∧
    computeWHR [gameB, gameA] = computeWHR [gameA, gameB] := by
  have h1 : sortGamesByTime [gameB, gameA] = [gameA, gameB] := by
    unfold sortGamesByTime gameA gameB
    norm_num [List.insertionSort, List.orderedInsert, byPlayedAt]
  have h2 : sortGamesByTime [gameA, gameB] = [gameA, gameB] := by
    unfold sortGamesByTime gameA gameB
    norm_num [List.insertionSort, List.orderedInsert, byPlayedAt]
  exact ⟨h1, by rw [computeWHR, computeWHR, h1, h2]⟩

/-- C10, amended: computeWHR sorts its input by timestamp before computing
day gaps, so for pairwise distinct timestamps its output is invariant under
every permutation of the input game list; out-of-order input is neither
rejected nor produces different results. -/
theorem C10_perm_invariant (l1 l2 : List WHRGame) (hperm : l1.Perm l2)
    (hnodup : (l1.map WHRGame.playedAt).Nodup) :
    computeWHR l1 = computeWHR l2 := by
  suffices h : sortGamesByTime l1 = sortGamesByTime l2 by
    rw [computeWHR, computeWHR, h]
  have hchain : (sortGamesByTime l1).Perm (sortGamesByTime l2) :=
    ((List.perm_insertionSort byPlayedAt l1).trans hperm).trans
      (List.perm_insertionSort byPlayedAt l2).symm
  have hs1 : (sortGamesByTime l1).Sorted (fun a b => a.playedAt ≤ b.playedAt) :=
    List.sorted_insertionSort byPlayedAt l1
  have hs2 : (sortGamesByTime l2).Sorted (fun a b => a.playedAt ≤ b.playedAt) :=
    List.sorted_insertionSort byPlayedAt l2
  have hnd : ((sortGamesByTime l1).map WHRGame.playedAt).Nodup := by
    have hp := (List.perm_insertionSort byPlayedAt l1).map WHRGame.playedAt
    exact hp.nodup_iff.mpr hnodup
  exact eq_of_perm_of_sorted_key WHRGame.playedAt _ _ hchain hs1 hs2 hnd

/-- C10 witness: the amended invariance applied to the concrete shuffled
pair of games. -/
theorem C10_perm_invariant_witness :
    ([gameB, gameA].Perm [gameA, gameB]) ∧
    (([gameB, gameA].map WHRGame.playedAt).Nodup) ∧
    computeWHR [gameB, gameA] = computeWHR [gameA, gameB] := by
  have hperm : [gameB, gameA].Perm [gameA, gameB] := List.Perm.swap gameA gameB []
  have hnd : ([gameB, gameA].map WHRGame.playedAt).Nodup := by
    unfold gameA gameB
    norm_num
  exact ⟨hperm, hnd, C10_perm_invariant [gameB, gameA] [gameA, gameB] hperm hnd⟩

/-- The quarter power of 10, the basic Elo step of a 100-point rating
difference: 10 ^ ((1200 - 1100) / 400). -/
def eloQ : ℝ := (10 : ℝ) ^ ((1:ℝ)/4)

lemma eloQ_pos : 0 < eloQ := Real.rpow_pos_of_pos (by norm_num) _

lemma rpow_half_eq : (10:ℝ) ^ ((1:ℝ)/2) = eloQ^2 := by
  unfold eloQ
  rw [← Real.rpow_natCast ((10:ℝ) ^ ((1:ℝ)/4)) 2,
    ← Real.rpow_mul (by norm_num : (0:ℝ) ≤ 10)]
  norm_num

lemma rpow_34_eq : (10:ℝ) ^ ((3:ℝ)/4) = eloQ^3 := by
  unfold eloQ
  rw [← Real.rpow_natCast ((10:ℝ) ^ ((1:ℝ)/4)) 3,
    ← Real.rpow_mul (by norm_num : (0:ℝ) ≤ 10)]
  norm_num

lemma eloQ_pow4 : eloQ^4 = 10 := by
  unfold eloQ
  rw [← Real.rpow_natCast ((10:ℝ) ^ ((1:ℝ)/4)) 4,
    ← Real.rpow_mul (by norm_num : (0:ℝ) ≤ 10)]
  norm_num

lemma eloQ_sq_bounds : 3.1622 < eloQ^2 ∧ eloQ^2 < 3.1623 := by
  have h4 := eloQ_pow4
  have hpos := eloQ_pos
  have hsq : (0:ℝ) < eloQ^2 := by positivity
  have ha : (eloQ^2)^2 = 10 := by rw [← pow_mul]; exact h4
  constructor
  · nlinarith [ha, hsq]
  · nlinarith [ha, hsq]

lemma eloQ_bounds : 1.7782 < eloQ ∧ eloQ < 1.7783 := by
  obtain ⟨hl, hu⟩ := eloQ_sq_bounds
  have hpos := eloQ_pos
  constructor
  · nlinarith
  · nlinarith

lemma exp5_bounds : 0 < Real.exp (-5) ∧ Real.exp (-5) < 0.007 := by
  refine ⟨Real.exp_pos _, ?_⟩
  have h1 := Real.exp_one_gt_d9
  have hpos := Real.exp_pos 1
  have hinv : Real.exp (-1) = (Real.exp 1)⁻¹ := Real.exp_neg 1
  have hinvpos : 0 < Real.exp (-1) := Real.exp_pos _
  have ha : Real.exp (-1) * Real.exp 1 = 1 := by
    rw [hinv]
    exact inv_mul_cancel₀ (ne_of_gt hpos)
  have h2 : Real.exp (-1) < 0.3679 := by nlinarith
  have h5 : Real.exp (-5) = (Real.exp (-1))^5 := by
    rw [← Real.exp_nat_mul]
    norm_num
  rw [h5]
  calc (Real.exp (-1))^5 < (0.3679:ℝ)^5 := by
        exact pow_lt_pow_left₀ h2 (le_of_lt hinvpos) (by norm_num)
    _ < 0.007 := by norm_num

lemma getKFactor_100 : getKFactor 100 = 16 + 16 * Real.exp (-5) := by
  unfold getKFactor K_MIN K_MAX K_DECAY_RATE
  norm_num

lemma expectedScore_diff100_a : getExpectedScore 1100 1200 = 1/(1 + eloQ) := by
  unfold getExpectedScore
  rw [show ((1200:ℝ) - 1100)/400 = (1:ℝ)/4 by norm_num]
  rfl

lemma expectedScore_diff100_b : getExpectedScore 1000 1100 = 1/(1 + eloQ) := by
  unfold getExpectedScore
  rw [show ((1100:ℝ) - 1000)/400 = (1:ℝ)/4 by norm_num]
  rfl

lemma expectedScore_diff100_c : getExpectedScore 900 1000 = 1/(1 + eloQ) := by
  unfold getExpectedScore
  rw [show ((1000:ℝ) - 900)/400 = (1:ℝ)/4 by norm_num]
  rfl

lemma expectedScore_diff200_a : getExpectedScore 1000 1200 = 1/(1 + eloQ^2) := by
  unfold getExpectedScore
  rw [show ((1200:ℝ) - 1000)/400 = (1:ℝ)/2 by norm_num, rpow_half_eq]

lemma expectedScore_diff200_b : getExpectedScore 900 1100 = 1/(1 + eloQ^2) := by
  unfold getExpectedScore
  rw [show ((1100:ℝ) - 900)/400 = (1:ℝ)/2 by norm_num, rpow_half_eq]

lemma expectedScore_diff300 : getExpectedScore 900 1200 = 1/(1 + eloQ^3) := by
  unfold getExpectedScore
  rw [show ((1200:ℝ) - 900)/400 = (3:ℝ)/4 by norm_num, rpow_34_eq]

/-- C6 counterexample: the K factor never equals 16 for any games-played
count; it stays strictly above its floor, so no input matches the premise
of the claim literally. -/
theorem C6_counterexample : ¬ ∃ n : ℝ, getKFactor n = 16 := by
  rintro ⟨n, hn⟩
  unfold getKFactor K_MIN K_MAX K_DECAY_RATE at hn
  nlinarith [Real.exp_pos (-n / 20), hn]

/-- The four-player worked example: ratings 1200, 1100, 1000, 900 with 100
prior games each (the K factor 16 + 16 * exp (-5), numerically at its floor
16), finishing in rating order. -/
def examplePlayers : List Player :=
  [⟨"p1", 1200, 100, 1⟩, ⟨"p2", 1100, 100, 2⟩, ⟨"p3", 1000, 100, 3⟩, ⟨"p4", 900, 100, 4⟩]

set_option maxHeartbeats 2000000 in
/-- C6, amended: K never reaches 16 exactly, but with 100 prior games for
every player (K = 16 + 16 * exp (-5), within 0.11 of the floor 16) the
worked example holds: calculateEloChanges on ratings 1200, 1100, 1000, 900
finishing in rating order returns the rounded deltas +12, +4, -4, -12,
hence final ratings 1212, 1104, 996, 888. -/
theorem C6_worked_example :
    calculateEloChanges examplePlayers
      = [("p1", 12), ("p2", 4), ("p3", -4), ("p4", -12)] := by
  have hfin : List.finRange (examplePlayers.length)
      = [⟨0, by decide⟩, ⟨1, by decide⟩, ⟨2, by decide⟩, ⟨3, by decide⟩] := by decide
  have hcalc : calculateEloChanges examplePlayers
      = [("p1", jsRound (unroundedDelta examplePlayers ⟨0, by decide⟩)),
         ("p2", jsRound (unroundedDelta examplePlayers ⟨1, by decide⟩)),
         ("p3", jsRound (unroundedDelta examplePlayers ⟨2, by decide⟩)),
         ("p4", jsRound (unroundedDelta examplePlayers ⟨3, by decide⟩))] := by
    rw [calculateEloChanges, hfin]
    simp only [List.map_cons, List.map_nil]
    rfl
  have h0 : unroundedDelta examplePlayers ⟨0, by decide⟩
      = pairDelta ⟨"p1", 1200, 100, 1⟩ ⟨"p2", 1100, 100, 2⟩
        + (pairDelta ⟨"p1", 1200, 100, 1⟩ ⟨"p3", 1000, 100, 3⟩
          + pairDelta ⟨"p1", 1200, 100, 1⟩ ⟨"p4", 900, 100, 4⟩) := by
    rw [unroundedDelta]
    rw [show (Finset.univ.erase (⟨0, by decide⟩ : Fin examplePlayers.length))
        = {⟨1, by decide⟩, ⟨2, by decide⟩, ⟨3, by decide⟩} from by decide]
    rw [Finset.sum_insert (by decide), Finset.sum_insert (by decide),
      Finset.sum_singleton]
    rfl
  have h1 : unroundedDelta examplePlayers ⟨1, by decide⟩
      = pairDelta ⟨"p2", 1100, 100, 2⟩ ⟨"p1", 1200, 100, 1⟩
        + (pairDelta ⟨"p2", 1100, 100, 2⟩ ⟨"p3", 1000, 100, 3⟩
          + pairDelta ⟨"p2", 1100, 100, 2⟩ ⟨"p4", 900, 100, 4⟩) := by
    rw [unroundedDelta]
    rw [show (Finset.univ.erase (⟨1, by decide⟩ : Fin examplePlayers.length))
        = {⟨0, by decide⟩, ⟨2, by decide⟩, ⟨3, by decide⟩} from by decide]
    rw [Finset.sum_insert (by decide), Finset.sum_insert (by decide),
      Finset.sum_singleton]
    rfl
  have h2 : unroundedDelta examplePlayers ⟨2, by decide⟩
      = pairDelta ⟨"p3", 1000, 100, 3⟩ ⟨"p1", 1200, 100, 1⟩
        + (pairDelta ⟨"p3", 1000, 100, 3⟩ ⟨"p2", 1100, 100, 2⟩
          + pairDelta ⟨"p3", 1000, 100, 3⟩ ⟨"p4", 900, 100, 4⟩) := by
    rw [unroundedDelta]
    rw [show (Finset.univ.erase (⟨2, by decide⟩ : Fin examplePlayers.length))
        = {⟨0, by decide⟩, ⟨1, by decide⟩, ⟨3, by decide⟩} from by decide]
    rw [Finset.sum_insert (by decide), Finset.sum_insert (by decide),
      Finset.sum_singleton]
    rfl
  have h3 : unroundedDelta examplePlayers ⟨3, by decide⟩
      = pairDelta ⟨"p4", 900, 100, 4⟩ ⟨"p1", 1200, 100, 1⟩
        + (pairDelta ⟨"p4", 900, 100, 4⟩ ⟨"p2", 1100, 100, 2⟩
          + pairDelta ⟨"p4", 900, 100, 4⟩ ⟨"p3", 1000, 100, 3⟩) := by
    rw [unroundedDelta]
    rw [show (Finset.univ.erase (⟨3, by decide⟩ : Fin examplePlayers.length))
        = {⟨0, by decide⟩, ⟨1, by decide⟩, ⟨2, by decide⟩} from by decide]
    rw [Finset.sum_insert (by decide), Finset.sum_insert (by decide),
      Finset.sum_singleton]
    rfl
  have hrev1 : getExpectedScore 1200 1100 = 1 - 1/(1 + eloQ) := by
    have := getExpectedScore_add 1200 1100
    have h := expectedScore_diff100_a
    linarith
  have hrev2 : getExpectedScore 1200 1000 = 1 - 1/(1 + eloQ^2) := by
    have := getExpectedScore_add 1200 1000
    have h := expectedScore_diff200_a
    linarith
  have hrev3 : getExpectedScore 1200 900 = 1 - 1/(1 + eloQ^3) := by
    have := getExpectedScore_add 1200 900
    have h := expectedScore_diff300
    linarith
  have hrev4 : getExpectedScore 1100 1000 = 1 - 1/(1 + eloQ) := by
    have := getExpectedScore_add 1100 1000
    have h := expectedScore_diff100_b
    linarith
  have hrev5 : getExpectedScore 1100 900 = 1 - 1/(1 + eloQ^2) := by
    have := getExpectedScore_add 1100 900
    have h := expectedScore_diff200_b
    linarith
  have hrev6 : getExpectedScore 1000 900 = 1 - 1/(1 + eloQ) := by
    have := getExpectedScore_add 1000 900
    have h := expectedScore_diff100_c
    linarith
  have hd0 : pairDelta ⟨"p1", 1200, 100, 1⟩ ⟨"p2", 1100, 100, 2⟩
        + (pairDelta ⟨"p1", 1200, 100, 1⟩ ⟨"p3", 1000, 100, 3⟩
          + pairDelta ⟨"p1", 1200, 100, 1⟩ ⟨"p4", 900, 100, 4⟩)
      = (16 + 16 * Real.exp (-5))
          * (1/(1 + eloQ) + 1/(1 + eloQ^2) + 1/(1 + eloQ^3)) := by
    unfold pairDelta pairScore
    dsimp only
    rw [if_pos (by norm_num : (1:ℝ) < 2), if_pos (by norm_num : (1:ℝ) < 3),
      if_pos (by norm_num : (1:ℝ) < 4)]
    rw [getKFactor_100, hrev1, hrev2, hrev3]
    ring
  have hd1 : pairDelta ⟨"p2", 1100, 100, 2⟩ ⟨"p1", 1200, 100, 1⟩
        + (pairDelta ⟨"p2", 1100, 100, 2⟩ ⟨"p3", 1000, 100, 3⟩
          + pairDelta ⟨"p2", 1100, 100, 2⟩ ⟨"p4", 900, 100, 4⟩)
      = (16 + 16 * Real.exp (-5)) * (1/(1 + eloQ^2)) := by
    unfold pairDelta pairScore
    dsimp only
    rw [if_neg (by norm_num : ¬ (2:ℝ) < 1), if_pos (by norm_num : (1:ℝ) < 2),
      if_pos (by norm_num : (2:ℝ) < 3), if_pos (by norm_num : (2:ℝ) < 4)]
    rw [getKFactor_100, expectedScore_diff100_a, hrev4, hrev5]
    ring
  have hd2 : pairDelta ⟨"p3", 1000, 100, 3⟩ ⟨"p1", 1200, 100, 1⟩
        + (pairDelta ⟨"p3", 1000, 100, 3⟩ ⟨"p2", 1100, 100, 2⟩
          + pairDelta ⟨"p3", 1000, 100, 3⟩ ⟨"p4", 900, 100, 4⟩)
      = -((16 + 16 * Real.exp (-5)) * (1/(1 + eloQ^2))) := by
    unfold pairDelta pairScore
    dsimp only
    rw [if_neg (by norm_num : ¬ (3:ℝ) < 1), if_pos (by norm_num : (1:ℝ) < 3),
      if_neg (by norm_num : ¬ (3:ℝ) < 2), if_pos (by norm_num : (2:ℝ) < 3),
      if_pos (by norm_num : (3:ℝ) < 4)]
    rw [getKFactor_100, expectedScore_diff200_a, expectedScore_diff100_b, hrev6]
    ring
  have hd3 : pairDelta ⟨"p4", 900, 100, 4⟩ ⟨"p1", 1200, 100, 1⟩
        + (pairDelta ⟨"p4", 900, 100, 4⟩ ⟨"p2", 1100, 100, 2⟩
          + pairDelta ⟨"p4", 900, 100, 4⟩ ⟨"p3", 1000, 100, 3⟩)
      = -((16 + 16 * Real.exp (-5))
          * (1/(1 + eloQ) + 1/(1 + eloQ^2) + 1/(1 + eloQ^3))) := by
    unfold pairDelta pairScore
    dsimp only
    rw [if_neg (by norm_num : ¬ (4:ℝ) < 1), if_pos (by norm_num : (1:ℝ) < 4),
      if_neg (by norm_num : ¬ (4:ℝ) < 2), if_pos (by norm_num : (2:ℝ) < 4),
      if_neg (by norm_num : ¬ (4:ℝ) < 3), if_pos (by norm_num : (3:ℝ) < 4)]
    rw [getKFactor_100, expectedScore_diff300, expectedScore_diff200_b,
      expectedScore_diff100_c]
    ring
  -- numeric bounds
  obtain ⟨hql, hqu⟩ := eloQ_bounds
  obtain ⟨hsl, hsu⟩ := eloQ_sq_bounds
  obtain ⟨he5l, he5u⟩ := exp5_bounds
  have hcl : (5.5:ℝ) < eloQ^3 := by nlinarith [eloQ_pos]
  have hcu : eloQ^3 < (5.7:ℝ) := by nlinarith [eloQ_pos]
  have h1p : (0:ℝ) < 1 + eloQ := by linarith
  have h2p : (0:ℝ) < 1 + eloQ^2 := by linarith
  have h3p : (0:ℝ) < 1 + eloQ^3 := by linarith
  have hul : (0.3599:ℝ) < 1/(1 + eloQ) := by
    rw [lt_div_iff₀ h1p]
    linarith
  have huu : 1/(1 + eloQ) < (0.36:ℝ) := by
    rw [div_lt_iff₀ h1p]
    linarith
  have hvl : (0.2402:ℝ) < 1/(1 + eloQ^2) := by
    rw [lt_div_iff₀ h2p]
    linarith
  have hvu : 1/(1 + eloQ^2) < (0.2403:ℝ) := by
    rw [div_lt_iff₀ h2p]
    linarith
  have hwl : (0.149:ℝ) < 1/(1 + eloQ^3) := by
    rw [lt_div_iff₀ h3p]
    linarith
  have hwu : 1/(1 + eloQ^3) < (0.154:ℝ) := by
    rw [div_lt_iff₀ h3p]
    linarith
  have hr0 : jsRound ((16 + 16 * Real.exp (-5))
      * (1/(1 + eloQ) + 1/(1 + eloQ^2) + 1/(1 + eloQ^3))) = 12 := by
    rw [jsRound, Int.floor_eq_iff]
    push_cast
    constructor
    · nlinarith
    · nlinarith
  have hr1 : jsRound ((16 + 16 * Real.exp (-5)) * (1/(1 + eloQ^2))) = 4 := by
    rw [jsRound, Int.floor_eq_iff]
    push_cast
    constructor
    · nlinarith
    · nlinarith
  have hr2 : jsRound (-((16 + 16 * Real.exp (-5)) * (1/(1 + eloQ^2)))) = -4 := by
    rw [jsRound, Int.floor_eq_iff]
    push_cast
    constructor
    · nlinarith
    · nlinarith
  have hr3 : jsRound (-((16 + 16 * Real.exp (-5))
      * (1/(1 + eloQ) + 1/(1 + eloQ^2) + 1/(1 + eloQ^3)))) = -12 := by
    rw [jsRound, Int.floor_eq_iff]
    push_cast
    constructor
    · nlinarith
    · nlinarith
  rw [hcalc, h0, h1, h2, h3, hd0, hd1, hd2, hd3, hr0, hr1, hr2, hr3]
